import Mathlib

/-!
# Verification of the Viterbi POS tagger in `runtagger.py`

Shallow embedding of the decoding core of
`CS4248 NLP/Assignments/Assignment 1/runtagger.py`:
the `viterbi` trellis construction, `backtrack_viterbi_matrix`, and the
per-line orchestration of `tag_sentence`.

Modelling conventions:

* Log-probabilities are values of an abstract type `α` equipped with a
  linear order and addition, mirroring the fact that the Python code only
  ever adds and compares them.  `math.log` is passed in as an abstract
  function `log : ℚ → α`; it is applied exactly where the source applies
  `math.log`, namely to the two smoothing quotients.  For concrete runs we
  instantiate `α := Additive ℚ`, whose addition is rational multiplication
  and whose order is the rational order: since `log` is a strictly
  monotone isomorphism from `(ℝ>0, ×, <)` onto `(ℝ, +, <)` and every
  log-probability in the spec scenarios is the log of a positive rational,
  this instantiation computes exactly the real-number log arithmetic
  of the source (floats idealised as exact reals).
* Python dicts that the trellis uses are modelled as association lists in
  insertion order (CPython dicts preserve insertion order, which the
  source relies on for its tie-breaking iteration).  A raised exception
  (`IndexError`, `KeyError`, `ValueError`, `TypeError`) is modelled as
  `none` of the surrounding `Option`.
* The outer model tables `initial_state_probability`,
  `emission_probability[state]` and `transition_probability[prev_state]`
  are total in the state argument (a missing state is the spec's fatal
  `MalformedModel`, out of the decoding core's scope); the inner
  token/target lookups performed with Python's `dict.get` are `Option`
  valued with an explicit default, exactly as in the source.
-/

namespace RunTagger

/-- Source: `K = 0.01` (global constant of `runtagger.py`). -/
def K : ℚ := 1 / 100

/-- One trellis cell: the dict
`{PROBABILITY: ..., BACKPOINTER: ...}` of the source. -/
structure Cell (α : Type) where
  prob : α
  backpointer : Option String
  deriving DecidableEq, Repr

/-- One trellis level `V[t]`: a Python dict from state to cell,
modelled as an association list in insertion order. -/
abbrev Level (α : Type) := List (String × Cell α)

/-- Python dict read `lvl[s]`: first entry with key `s`, `none` models a
`KeyError`. -/
def lookupLevel {α : Type} (lvl : Level α) (s : String) : Option (Cell α) :=
  (lvl.find? (fun e => decide (e.1 = s))).map (fun e => e.2)

/-- Python's builtin `max` on a list: `none` models the `ValueError` raised
on an empty sequence. -/
def pythonMax {α : Type} [LinearOrder α] : List α → Option α
  | [] => none
  | x :: xs => some (xs.foldl max x)

/-- Source line 19: `unknown_word_prob = math.log(1/distinct_word_count * K)`. -/
def unknown_word_prob {α : Type} (log : ℚ → α) (distinct_word_count : ℚ) : α :=
  log (1 / distinct_word_count * K)

/-- Source line 20: `unknown_state_prob = math.log(1/distinct_tag_count * K)`. -/
def unknown_state_prob {α : Type} (log : ℚ → α) (distinct_tag_count : ℚ) : α :=
  log (1 / distinct_tag_count * K)

/-- Source lines 23-28: fill `V[0]`.  For each state (in declared order)
`V[0][state] = {PROBABILITY: initial[state] + emission[state].get(obs[0], uw),
BACKPOINTER: None}`.  `observation.head?` models `observation[0]`, whose
`IndexError` on an empty observation aborts the decode. -/
def level0 {α : Type} [Add α] (uw : α) (initialP : String → α)
    (emissionP : String → String → Option α) (observation : List String) :
    List String → Option (Level α)
  | [] => some []
  | state :: rest => do
      let w ← observation.head?
      let lvl ← level0 uw initialP emissionP observation rest
      pure ((state, ⟨initialP state + (emissionP state w).getD uw, none⟩) :: lvl)

/-- Source lines 34-36: the list comprehension
`probs = [V[t-1][p][PROBABILITY] + transition[p].get(state, us) for p in states]`.
A `KeyError` on the previous level aborts. -/
def transProbs {α : Type} [Add α] (us : α)
    (transitionP : String → String → Option α) (prev : Level α)
    (state : String) : List String → Option (List α)
  | [] => some []
  | p :: ps => do
      let c ← lookupLevel prev p
      let rest ← transProbs us transitionP prev state ps
      pure ((c.prob + (transitionP p state).getD us) :: rest)

/-- The accumulator shape of the source's lines 42-47: a loop over
`prev_state in states` that overwrites the accumulator each time the
predicate holds, so the LAST match survives.  `q p = none` models the
`KeyError` the source's recomputation would raise on a malformed previous
level. -/
def lastSat (q : String → Option Bool) : List String → Option String → Option String
  | [], acc => acc
  | p :: ps, acc =>
      match q p with
      | none => none
      | some b => lastSat q ps (if b then some p else acc)

/-- Source lines 34-47, for one `(t, state)` cell: compute the candidate
scores, their maximum, the emission-extended probability, and record the
backpointer by re-scanning all predecessors for an exact score match
(no `break`: the last matching predecessor is kept).  The unreachable
"no predecessor matches" case, which in the source leaves `V[t][state]`
unassigned and surfaces as a later `KeyError`, is modelled as `none`. -/
def stepCell {α : Type} [LinearOrder α] [Add α] (us uw : α)
    (states : List String) (emissionP transitionP : String → String → Option α)
    (prev : Level α) (w state : String) : Option (Cell α) := do
  let probs ← transProbs us transitionP prev state states
  let max_transition_prob ← pythonMax probs
  let max_emission_prob := max_transition_prob + (emissionP state w).getD uw
  let bp ← lastSat (fun p => (lookupLevel prev p).map
      (fun c => decide (c.prob + (transitionP p state).getD us = max_transition_prob)))
      states none
  pure ⟨max_emission_prob, some bp⟩

/-- Source lines 33-47: build level `V[t]` by iterating `state in states`
(insertion order = declared state order). -/
def nextLevel {α : Type} [LinearOrder α] [Add α] (us uw : α)
    (states : List String) (emissionP transitionP : String → String → Option α)
    (prev : Level α) (w : String) : List String → Option (Level α)
  | [] => some []
  | state :: rest => do
      let c ← stepCell us uw states emissionP transitionP prev w state
      let lvl ← nextLevel us uw states emissionP transitionP prev w rest
      pure ((state, c) :: lvl)

/-- Source lines 30-47: the loop `for t in range(1, len(observation))`,
appending one level per remaining observation token. -/
def extendTrellis {α : Type} [LinearOrder α] [Add α] (us uw : α)
    (states : List String) (emissionP transitionP : String → String → Option α) :
    Level α → List String → Option (List (Level α))
  | _, [] => some []
  | prev, w :: ws => do
      let lvl ← nextLevel us uw states emissionP transitionP prev w states
      let rest ← extendTrellis us uw states emissionP transitionP lvl ws
      pure (lvl :: rest)

/-- Source lines 21-47: the whole trellis `V`, level 0 plus one level per
token of `observation[1:]`. -/
def buildTrellis {α : Type} [LinearOrder α] [Add α] (us uw : α)
    (states : List String) (initialP : String → α)
    (emissionP transitionP : String → String → Option α)
    (observation : List String) : Option (List (Level α)) := do
  let l0 ← level0 uw initialP emissionP observation states
  let rest ← extendTrellis us uw states emissionP transitionP l0 observation.tail
  pure (l0 :: rest)

/-- Source lines 69-72: the backward walk.  The levels are passed highest-`t`
first (`V[n-1], ..., V[1]`), `pre_tag` is the currently selected state; each
step reads `V[t+1][pre_tag][BACKPOINTER]` (`KeyError` on a missing key is
`none`; a `None` backpointer, which would crash the output formatting,
is also `none`). -/
def backWalk {α : Type} : List (Level α) → String → Option (List String)
  | [], _ => some []
  | lvl :: rest, pre_tag => do
      let c ← lookupLevel lvl pre_tag
      let x ← c.backpointer
      let more ← backWalk rest x
      pure (x :: more)

/-- Source lines 58-74, `backtrack_viterbi_matrix`: take the maximum final
probability, select the FIRST final state matching it exactly (the loop
`break`s), walk the backpointers from `t = n-1` down to `1`, and reverse.
If no final cell matches the recomputed maximum, `pre_tag` keeps the
sentinel value `"RDM"`, exactly as in the source. -/
def backtrack_viterbi_matrix {α : Type} [LinearOrder α]
    (V : List (Level α)) : Option (List String) := do
  let lastL ← V.getLast?
  let max_probability ← pythonMax (lastL.map (fun e => e.2.prob))
  let sel := match lastL.find? (fun e => decide (e.2.prob = max_probability)) with
    | some e => ([e.1], e.1)
    | none => ([], "RDM")
  let walked ← backWalk V.tail.reverse sel.2
  pure ((sel.1 ++ walked).reverse)

/-- Source lines 50-55: `output += observation[i] + '/' + tags[i] + " "`.
`none` models the `IndexError` when `tags` is shorter than `observation`. -/
def formatPairs : List String → List String → Option (List String)
  | [], _ => some []
  | _ :: _, [] => none
  | w :: ws, tg :: tgs =>
      (formatPairs ws tgs).map (fun r => (w ++ "/" ++ tg) :: r)

/-- Source lines 15-55, `viterbi`: build the trellis, backtrack, and format
`token/tag` pairs joined by single spaces (the source's trailing-space
append followed by `output[:-1]` equals `String.intercalate " "`). -/
def viterbi {α : Type} [LinearOrder α] [Add α] (log : ℚ → α)
    (observation : List String) (distinct_word_count : ℚ)
    (states : List String) (initial_state_probability : String → α)
    (emission_probability transition_probability : String → String → Option α) :
    Option String := do
  let distinct_tag_count : ℚ := (states.length : ℚ)
  let uw := unknown_word_prob log distinct_word_count
  let us := unknown_state_prob log distinct_tag_count
  let V ← buildTrellis us uw states initial_state_probability
      emission_probability transition_probability observation
  let tags ← backtrack_viterbi_matrix V
  let pairs ← formatPairs observation tags
  pure (String.intercalate " " pairs)

/-- The whitespace set of Python's `str.strip()` (ASCII part). -/
def isPySpace (c : Char) : Bool :=
  c = ' ' || c = '\t' || c = '\n' || c = '\x0d' || c = '\x0b' || c = '\x0c'

/-- Python `line.strip()`: drop leading and trailing whitespace. -/
def pyStrip (s : List Char) : List Char :=
  ((s.dropWhile isPySpace).reverse.dropWhile isPySpace).reverse

/-- Python `s.split(" ")` with an explicit single-space separator: split at
EVERY space, keeping empty pieces (`"".split(" ") = [""]`,
`"a  b".split(" ") = ["a", "", "b"]`). -/
def pySplitSpace : List Char → List (List Char)
  | [] => [[]]
  | c :: rest =>
      if c = ' ' then [] :: pySplitSpace rest
      else
        match pySplitSpace rest with
        | [] => [[c]]
        | t :: ts => (c :: t) :: ts

/-- Source line 94: `observation = line.strip().split(" ")`. -/
def obsOf (line : String) : List String :=
  (pySplitSpace (pyStrip line.data)).map (fun cs => String.mk cs)

/-- Source lines 92-98 of `tag_sentence`, per-line core: for each input
line in order, run `viterbi` on its observation and collect the output
lines (an exception on any line aborts the whole run, as in Python). -/
def tag_lines {α : Type} [LinearOrder α] [Add α] (log : ℚ → α)
    (distinct_word_count : ℚ) (states : List String)
    (initial_state_probability : String → α)
    (emission_probability transition_probability : String → String → Option α) :
    List String → Option (List String)
  | [] => some []
  | line :: rest => do
      let out ← viterbi log (obsOf line) distinct_word_count states
          initial_state_probability emission_probability transition_probability
      let outs ← tag_lines log distinct_word_count states
          initial_state_probability emission_probability transition_probability rest
      pure (out :: outs)

/-- `log` for concrete runs: `Additive ℚ` represents the log of a positive
rational; its `+` is rational multiplication and its order the rational
order, which is exactly how `math.log` values of positive rationals add
and compare. -/
def logQ : ℚ → Additive ℚ := fun q => Additive.ofMul q

/-- A level whose cell at each state `s` is `f s`, keys in declared state
order: the shape every level constructed by the engine has. -/
def mkLevel {α : Type} (states : List String) (f : String → Cell α) : Level α :=
  states.map (fun s => (s, f s))

/-- The pure accumulator recursion underlying `lastSat` once every lookup
succeeds. -/
def lastSatB (q : String → Bool) : List String → Option String → Option String
  | [], acc => acc
  | p :: ps, acc => lastSatB q ps (if q p then some p else acc)

/-! ### Lookup and `mkLevel` lemmas -/

theorem lookupLevel_cons {α : Type} (k : String) (c : Cell α) (lvl : Level α)
    (s : String) :
    lookupLevel ((k, c) :: lvl) s = if k = s then some c else lookupLevel lvl s := by
  by_cases h : k = s <;> simp [lookupLevel, List.find?, h]

theorem lookup_mkLevel {α : Type} {states : List String} (f : String → Cell α)
    {s : String} (h : s ∈ states) :
    lookupLevel (mkLevel states f) s = some (f s) := by
  induction states with
  | nil => cases h
  | cons k rest ih =>
      rcases List.mem_cons.mp h with h' | h'
      · subst h'; simp [mkLevel, lookupLevel_cons]
      · by_cases hk : k = s
        · subst hk; simp [mkLevel, lookupLevel_cons]
        · simpa [mkLevel, lookupLevel_cons, hk] using ih h'

theorem mkLevel_length {α : Type} (states : List String) (f : String → Cell α) :
    (mkLevel states f).length = states.length := by
  simp [mkLevel]

theorem mkLevel_keys {α : Type} (states : List String) (f : String → Cell α) :
    (mkLevel states f).map (fun e => e.1) = states := by
  induction states with
  | nil => rfl
  | cons s rest ih => simpa [mkLevel] using ih

theorem mem_mkLevel_iff {α : Type} {states : List String} {f : String → Cell α}
    {e : String × Cell α} :
    e ∈ mkLevel states f ↔ ∃ s ∈ states, e = (s, f s) := by
  simp [mkLevel, eq_comm]

/-! ### `pythonMax` lemmas: the maximum of a nonempty list exists, is an
element of the list, and bounds the list. -/

theorem foldl_max_mem {α : Type} [LinearOrder α] :
    ∀ (xs : List α) (x : α), xs.foldl max x = x ∨ xs.foldl max x ∈ xs := by
  intro xs
  induction xs with
  | nil => intro x; left; rfl
  | cons y ys ih =>
      intro x
      rcases ih (max x y) with h | h
      · rcases max_choice x y with h' | h' <;> rw [List.foldl_cons, h, h']
        · exact Or.inl rfl
        · exact Or.inr (List.mem_cons_self _ _)
      · exact Or.inr (List.mem_cons_of_mem _ h)

theorem le_foldl_max {α : Type} [LinearOrder α] :
    ∀ (xs : List α) (x : α), x ≤ xs.foldl max x ∧ ∀ y ∈ xs, y ≤ xs.foldl max x := by
  intro xs
  induction xs with
  | nil => intro x; exact ⟨le_refl x, by intro y hy; cases hy⟩
  | cons z zs ih =>
      intro x
      obtain ⟨h1, h2⟩ := ih (max x z)
      refine ⟨le_trans (le_max_left x z) h1, ?_⟩
      intro y hy
      rcases List.mem_cons.mp hy with h | h
      · subst h; exact le_trans (le_max_right x y) h1
      · exact h2 y h

theorem pythonMax_mem {α : Type} [LinearOrder α] {l : List α} {m : α}
    (h : pythonMax l = some m) : m ∈ l := by
  cases l with
  | nil => cases h
  | cons x xs =>
      simp only [pythonMax, Option.some.injEq] at h
      subst h
      rcases foldl_max_mem xs x with h | h
      · rw [h]; exact List.mem_cons_self _ _
      · exact List.mem_cons_of_mem _ h

theorem pythonMax_le {α : Type} [LinearOrder α] {l : List α} {m : α}
    (h : pythonMax l = some m) : ∀ x ∈ l, x ≤ m := by
  cases l with
  | nil => cases h
  | cons x xs =>
      simp only [pythonMax, Option.some.injEq] at h
      subst h
      intro y hy
      rcases List.mem_cons.mp hy with h | h
      · subst h; exact (le_foldl_max xs y).1
      · exact (le_foldl_max xs x).2 y h

theorem pythonMax_of_ne_nil {α : Type} [LinearOrder α] {l : List α}
    (h : l ≠ []) : ∃ m, pythonMax l = some m := by
  cases l with
  | nil => exact absurd rfl h
  | cons x xs => exact ⟨xs.foldl max x, rfl⟩

/-! ### `lastSat` lemmas: with all lookups defined it is the pure
accumulator loop, and that loop records the LAST matching element. -/

theorem lastSat_eq_lastSatB (q' : String → Option Bool) (q : String → Bool) :
    ∀ (ps : List String), (∀ p ∈ ps, q' p = some (q p)) →
      ∀ acc, lastSat q' ps acc = lastSatB q ps acc := by
  intro ps
  induction ps with
  | nil => intro _ acc; rfl
  | cons p ps ih =>
      intro h acc
      have hp := h p (List.mem_cons_self _ _)
      simp only [lastSat, lastSatB, hp]
      exact ih (fun x hx => h x (List.mem_cons_of_mem _ hx)) _

theorem lastSatB_eq_findRev (q : String → Bool) :
    ∀ (ps : List String) (acc : Option String),
      lastSatB q ps acc = (ps.reverse.find? q).or acc := by
  intro ps
  induction ps with
  | nil => intro acc; rfl
  | cons p ps ih =>
      intro acc
      simp only [lastSatB, ih, List.reverse_cons, List.find?_append]
      cases hf : ps.reverse.find? q with
      | some x => simp [Option.or]
      | none =>
          cases hq : q p <;> simp [Option.or, List.find?, hq]

theorem lastSatB_some (q : String → Bool) (ps : List String) (acc : Option String)
    (h : ∃ p ∈ ps, q p = true) :
    ∃ x, lastSatB q ps acc = some x ∧ x ∈ ps ∧ q x = true := by
  obtain ⟨p, hp, hq⟩ := h
  have hsome : (ps.reverse.find? q).isSome = true :=
    List.find?_isSome.mpr ⟨p, List.mem_reverse.mpr hp, hq⟩
  cases hf : ps.reverse.find? q with
  | none => rw [hf] at hsome; cases hsome
  | some x =>
      refine ⟨x, ?_, ?_, ?_⟩
      · rw [lastSatB_eq_findRev, hf]; rfl
      · exact List.mem_reverse.mp (List.mem_of_find?_eq_some hf)
      · exact List.find?_some hf

/-! ### Level-0 construction -/

/-- The cell the source stores at `V[0][s]`. -/
def cell0 {α : Type} [Add α] (uw : α) (initialP : String → α)
    (emissionP : String → String → Option α) (w s : String) : Cell α :=
  ⟨initialP s + (emissionP s w).getD uw, none⟩

theorem level0_eq {α : Type} [Add α] (uw : α) (initialP : String → α)
    (emissionP : String → String → Option α) (w : String) (ws : List String) :
    ∀ sts, level0 uw initialP emissionP (w :: ws) sts
      = some (mkLevel sts (cell0 uw initialP emissionP w)) := by
  intro sts
  induction sts with
  | nil => rfl
  | cons s rest ih => simp [level0, ih, mkLevel, cell0, List.head?]

theorem level0_nil {α : Type} [Add α] (uw : α) (initialP : String → α)
    (emissionP : String → String → Option α) {sts : List String} (h : sts ≠ []) :
    level0 uw initialP emissionP [] sts = none := by
  cases sts with
  | nil => exact absurd rfl h
  | cons s rest => simp [level0, List.head?]

/-! ### Step construction: candidate scores, maximum, backpointer -/

/-- The candidate score of predecessor `p` for target `state`, over a level
whose cells are given by `f`: the source's
`V[t-1][p][PROBABILITY] + transition[p].get(state, us)`. -/
def candScore {α : Type} [Add α] (us : α)
    (transitionP : String → String → Option α) (f : String → Cell α)
    (state p : String) : α :=
  (f p).prob + (transitionP p state).getD us

theorem transProbs_eq {α : Type} [Add α] (us : α)
    (transitionP : String → String → Option α) (states : List String)
    (f : String → Cell α) (state : String) :
    ∀ ps, (∀ p ∈ ps, p ∈ states) →
      transProbs us transitionP (mkLevel states f) state ps
        = some (ps.map (candScore us transitionP f state)) := by
  intro ps
  induction ps with
  | nil => intro _; rfl
  | cons p rest ih =>
      intro h
      have hp : p ∈ states := h p (List.mem_cons_self _ _)
      simp [transProbs, lookup_mkLevel f hp,
        ih (fun x hx => h x (List.mem_cons_of_mem _ hx)), candScore]

theorem stepCell_eq {α : Type} [LinearOrder α] [Add α] (us uw : α)
    (states : List String) (emissionP transitionP : String → String → Option α)
    (f : String → Cell α) (w state : String) (hne : states ≠ []) :
    ∃ m bp,
      pythonMax (states.map (candScore us transitionP f state)) = some m ∧
      lastSatB (fun p => decide (candScore us transitionP f state p = m))
        states none = some bp ∧
      bp ∈ states ∧ candScore us transitionP f state bp = m ∧
      stepCell us uw states emissionP transitionP (mkLevel states f) w state
        = some ⟨m + (emissionP state w).getD uw, some bp⟩ := by
  have hmap : states.map (candScore us transitionP f state) ≠ [] := by
    simpa using hne
  obtain ⟨m, hm⟩ := pythonMax_of_ne_nil hmap
  have hmem := pythonMax_mem hm
  obtain ⟨p, hp, hps⟩ := List.mem_map.mp hmem
  obtain ⟨bp, hbp, hbpmem, hbpq⟩ := lastSatB_some
    (fun p => decide (candScore us transitionP f state p = m)) states none
    ⟨p, hp, by simp [hps]⟩
  refine ⟨m, bp, hm, hbp, hbpmem, by simpa using hbpq, ?_⟩
  have htp := transProbs_eq us transitionP states f state states (fun x hx => hx)
  have hsat : lastSat (fun p => (lookupLevel (mkLevel states f) p).map
        (fun c => decide (c.prob + (transitionP p state).getD us = m)))
        states none
      = lastSatB (fun p => decide (candScore us transitionP f state p = m))
        states none := by
    apply lastSat_eq_lastSatB
    intro x hx
    simp [lookup_mkLevel f hx, candScore]
  simp [stepCell, htp, hm, hsat, hbp]

theorem nextLevel_eq {α : Type} [LinearOrder α] [Add α] (us uw : α)
    (states : List String) (emissionP transitionP : String → String → Option α)
    (f : String → Cell α) (w : String) (hne : states ≠ []) :
    ∀ sts, (∀ s ∈ sts, s ∈ states) →
      ∃ g : String → Cell α,
        nextLevel us uw states emissionP transitionP (mkLevel states f) w sts
          = some (mkLevel sts g) ∧
        ∀ s ∈ sts, stepCell us uw states emissionP transitionP
            (mkLevel states f) w s = some (g s) := by
  intro sts
  induction sts with
  | nil => intro _; exact ⟨fun _ => ⟨uw, none⟩, rfl, by intro s hs; cases hs⟩
  | cons s rest ih =>
      intro h
      obtain ⟨m, bp, _, _, _, _, hstep⟩ := stepCell_eq us uw states emissionP
        transitionP f w s hne
      obtain ⟨g0, hg0, hg0step⟩ := ih (fun x hx => h x (List.mem_cons_of_mem _ hx))
      refine ⟨fun x => if x = s then ⟨m + (emissionP s w).getD uw, some bp⟩ else g0 x,
        ?_, ?_⟩
      · have hlvl : mkLevel rest
            (fun x => if x = s then ⟨m + (emissionP s w).getD uw, some bp⟩ else g0 x)
            = mkLevel rest g0 := by
          apply List.map_congr_left
          intro x hx
          by_cases hxs : x = s
          · subst hxs
            have := hg0step x hx
            rw [hstep] at this
            simp [Option.some.injEq] at this
            simp [this]
          · simp [hxs]
        have hcons : mkLevel (s :: rest)
            (fun x => if x = s then ⟨m + (emissionP s w).getD uw, some bp⟩ else g0 x)
            = (s, (⟨m + (emissionP s w).getD uw, some bp⟩ : Cell α)) :: mkLevel rest g0 := by
          rw [← hlvl]; simp [mkLevel]
        rw [hcons]
        simp [nextLevel, hstep, hg0]
      · intro x hx
        rcases List.mem_cons.mp hx with hxs | hxr
        · subst hxs; simp [hstep]
        · by_cases hxs : x = s
          · subst hxs
            have := hg0step x hxr
            rw [hstep] at this
            simp [Option.some.injEq] at this
            simp [hstep, this]
          · simp [hxs, hg0step x hxr]

/-! ### Trellis-wide invariants -/

/-- A well-formed non-initial level: keys are the declared states in order
and every cell's backpointer is `some` state of the model. -/
def GoodLevel {α : Type} (states : List String) (lvl : Level α) : Prop :=
  ∃ g : String → Cell α, lvl = mkLevel states g ∧
    ∀ s ∈ states, ∃ p ∈ states, (g s).backpointer = some p

theorem nextLevel_good {α : Type} [LinearOrder α] [Add α] (us uw : α)
    (states : List String) (emissionP transitionP : String → String → Option α)
    (f : String → Cell α) (w : String) (hne : states ≠ []) :
    ∃ lvl, nextLevel us uw states emissionP transitionP (mkLevel states f) w states
        = some lvl ∧ GoodLevel states lvl := by
  obtain ⟨g, hg, hgstep⟩ := nextLevel_eq us uw states emissionP transitionP f w hne
    states (fun s hs => hs)
  refine ⟨mkLevel states g, hg, g, rfl, ?_⟩
  intro s hs
  obtain ⟨m, bp, _, _, hbpmem, _, hstep⟩ := stepCell_eq us uw states emissionP
    transitionP f w s hne
  have := hgstep s hs
  rw [hstep] at this
  simp [Option.some.injEq] at this
  exact ⟨bp, hbpmem, by simp [← this]⟩

theorem extendTrellis_spec {α : Type} [LinearOrder α] [Add α] (us uw : α)
    (states : List String) (emissionP transitionP : String → String → Option α)
    (hne : states ≠ []) :
    ∀ (ws : List String) (f : String → Cell α),
      ∃ Ts, extendTrellis us uw states emissionP transitionP (mkLevel states f) ws
          = some Ts ∧
        Ts.length = ws.length ∧ ∀ lvl ∈ Ts, GoodLevel states lvl := by
  intro ws
  induction ws with
  | nil => intro f; exact ⟨[], rfl, rfl, by intro lvl h; cases h⟩
  | cons w rest ih =>
      intro f
      obtain ⟨lvl, hlvl, g, hlg, hbp⟩ := nextLevel_good us uw states emissionP
        transitionP f w hne
      obtain ⟨Ts, hTs, hlen, hgood⟩ := ih g
      subst hlg
      refine ⟨mkLevel states g :: Ts, ?_, by simp [hlen], ?_⟩
      · simp [extendTrellis, hlvl, hTs]
      · intro l hl
        rcases List.mem_cons.mp hl with h | h
        · subst h; exact ⟨g, rfl, hbp⟩
        · exact hgood l h

theorem buildTrellis_spec {α : Type} [LinearOrder α] [Add α] (us uw : α)
    (states : List String) (initialP : String → α)
    (emissionP transitionP : String → String → Option α)
    (w : String) (ws : List String) (hne : states ≠ []) :
    ∃ T, buildTrellis us uw states initialP emissionP transitionP (w :: ws)
        = some T ∧
      T.length = (w :: ws).length ∧
      T.head? = some (mkLevel states (cell0 uw initialP emissionP w)) ∧
      (∀ lvl ∈ T, ∃ g, lvl = mkLevel states g) ∧
      ∀ lvl ∈ T.tail, GoodLevel states lvl := by
  obtain ⟨Ts, hTs, hlen, hgood⟩ := extendTrellis_spec us uw states emissionP
    transitionP hne ws (cell0 uw initialP emissionP w)
  refine ⟨mkLevel states (cell0 uw initialP emissionP w) :: Ts, ?_, by simp [hlen],
    rfl, ?_, by simpa using hgood⟩
  · simp [buildTrellis, level0_eq, hTs]
  · intro lvl hl
    rcases List.mem_cons.mp hl with h | h
    · exact ⟨_, h⟩
    · obtain ⟨g, hg, _⟩ := hgood lvl h
      exact ⟨g, hg⟩

/-! ### Backtracking -/

theorem backWalk_spec {α : Type} (states : List String) :
    ∀ (lvls : List (Level α)), (∀ lvl ∈ lvls, GoodLevel states lvl) →
      ∀ pre, pre ∈ states →
        ∃ out, backWalk lvls pre = some out ∧ out.length = lvls.length ∧
          ∀ x ∈ out, x ∈ states := by
  intro lvls
  induction lvls with
  | nil => intro _ pre _; exact ⟨[], rfl, rfl, by intro x h; cases h⟩
  | cons lvl rest ih =>
      intro hgood pre hpre
      obtain ⟨g, hg, hbp⟩ := hgood lvl (List.mem_cons_self _ _)
      obtain ⟨p, hpmem, hpeq⟩ := hbp pre hpre
      obtain ⟨out, hout, hlen, hmem⟩ :=
        ih (fun l hl => hgood l (List.mem_cons_of_mem _ hl)) p hpmem
      refine ⟨p :: out, ?_, by simp [hlen], ?_⟩
      · subst hg
        simp [backWalk, lookup_mkLevel g hpre, hpeq, hout]
      · intro x hx
        rcases List.mem_cons.mp hx with h | h
        · subst h; exact hpmem
        · exact hmem x h

theorem backtrack_spec {α : Type} [LinearOrder α] (states : List String)
    (T : List (Level α)) (hne : states ≠ []) (hT : T ≠ [])
    (hkeys : ∀ lvl ∈ T, ∃ g, lvl = mkLevel states g)
    (hgood : ∀ lvl ∈ T.tail, GoodLevel states lvl) :
    ∃ lastL m e tags,
      T.getLast? = some lastL ∧
      pythonMax (lastL.map (fun x => x.2.prob)) = some m ∧
      lastL.find? (fun x => decide (x.2.prob = m)) = some e ∧
      backtrack_viterbi_matrix T = some tags ∧
      tags.length = T.length ∧ (∀ x ∈ tags, x ∈ states) ∧
      tags.getLast? = some e.1 := by
  obtain ⟨lastL, hlast⟩ : ∃ lastL, T.getLast? = some lastL := by
    cases hL : T.getLast? with
    | none => exact absurd (List.getLast?_eq_none_iff.mp hL) hT
    | some l => exact ⟨l, rfl⟩
  have hlastmem : lastL ∈ T := by
    rw [List.getLast?_eq_getElem?] at hlast
    exact List.getElem?_mem hlast
  obtain ⟨gL, hgL⟩ := hkeys lastL hlastmem
  have hlastne : lastL ≠ [] := by
    subst hgL
    cases states with
    | nil => exact absurd rfl hne
    | cons s rest => simp [mkLevel]
  have hprobs : lastL.map (fun x => x.2.prob) ≠ [] := by
    simpa using hlastne
  obtain ⟨m, hm⟩ := pythonMax_of_ne_nil hprobs
  have hmem := pythonMax_mem hm
  obtain ⟨e0, he0, he0p⟩ := List.mem_map.mp hmem
  have hfind : (lastL.find? (fun x => decide (x.2.prob = m))).isSome = true :=
    List.find?_isSome.mpr ⟨e0, he0, by simp [he0p]⟩
  cases hf : lastL.find? (fun x => decide (x.2.prob = m)) with
  | none => rw [hf] at hfind; cases hfind
  | some e =>
      have hemem : e ∈ lastL := List.mem_of_find?_eq_some hf
      have hestate : e.1 ∈ states := by
        subst hgL
        obtain ⟨s, hs, hes⟩ := mem_mkLevel_iff.mp hemem
        simp [hes, hs]
      have hrevgood : ∀ lvl ∈ T.tail.reverse, GoodLevel states lvl := by
        intro lvl hl
        exact hgood lvl (List.mem_reverse.mp hl)
      obtain ⟨walked, hwalk, hwlen, hwmem⟩ :=
        backWalk_spec states T.tail.reverse hrevgood e.1 hestate
      refine ⟨lastL, m, e, (([e.1] ++ walked).reverse), hlast, hm, hf, ?_, ?_, ?_, ?_⟩
      · simp [backtrack_viterbi_matrix, hlast, hm, hf, hwalk]
      · have h1 : T.tail.length = T.length - 1 := by simp
        have h2 : T.length ≠ 0 := by
          intro h0
          exact hT (List.length_eq_zero.mp h0)
        simp only [List.length_reverse, List.length_append, List.length_cons,
          List.length_nil, hwlen, h1]
        omega
      · intro x hx
        rw [List.mem_reverse] at hx
        rcases List.mem_append.mp hx with h | h
        · rcases List.mem_singleton.mp h with h; subst h; exact hestate
        · exact hwmem x h
      · rw [show ([e.1] ++ walked).reverse = walked.reverse ++ [e.1] by simp]
        exact List.getLast?_concat _

/-! ### Output formatting and the full decode -/

theorem formatPairs_spec :
    ∀ (obs tags : List String), obs.length ≤ tags.length →
      ∃ pairs, formatPairs obs tags = some pairs ∧ pairs.length = obs.length := by
  intro obs
  induction obs with
  | nil => intro tags _; exact ⟨[], rfl, rfl⟩
  | cons w ws ih =>
      intro tags hlen
      cases tags with
      | nil => simp at hlen
      | cons tg tgs =>
          obtain ⟨pairs, hp, hplen⟩ := ih tgs (by simpa using hlen)
          exact ⟨(w ++ "/" ++ tg) :: pairs, by simp [formatPairs, hp], by simp [hplen]⟩

/-- Master run lemma: with a nonempty state set and a nonempty observation,
every stage of `viterbi` succeeds, and the structure of each stage is
exposed for the individual claims. -/
theorem viterbi_run {α : Type} [LinearOrder α] [Add α] (log : ℚ → α)
    (w : String) (ws : List String) (dwc : ℚ) (states : List String)
    (iP : String → α) (eP tP : String → String → Option α)
    (hne : states ≠ []) :
    ∃ T tags pairs,
      buildTrellis (unknown_state_prob log ((states.length : ℚ)))
          (unknown_word_prob log dwc) states iP eP tP (w :: ws) = some T ∧
      backtrack_viterbi_matrix T = some tags ∧
      tags.length = (w :: ws).length ∧ (∀ x ∈ tags, x ∈ states) ∧
      formatPairs (w :: ws) tags = some pairs ∧
      viterbi log (w :: ws) dwc states iP eP tP
        = some (String.intercalate " " pairs) := by
  obtain ⟨T, hT, hTlen, _, hkeys, hgood⟩ := buildTrellis_spec
    (unknown_state_prob log ((states.length : ℚ))) (unknown_word_prob log dwc)
    states iP eP tP w ws hne
  have hTne : T ≠ [] := by
    intro h0
    rw [h0] at hTlen
    simp at hTlen
  obtain ⟨lastL, m, e, tags, _, _, _, htags, htlen, htmem, _⟩ :=
    backtrack_spec states T hne hTne hkeys hgood
  have hlen : (w :: ws).length ≤ tags.length := by
    rw [htlen, hTlen]
  obtain ⟨pairs, hpairs, _⟩ := formatPairs_spec (w :: ws) tags hlen
  refine ⟨T, tags, pairs, hT, htags, by rw [htlen, hTlen], htmem, hpairs, ?_⟩
  simp [viterbi, hT, htags, hpairs]

/-! ## Claims -/

set_option maxRecDepth 10000 in
/-- C5: with states `["N","V"]`, vocabulary size 10, initial probabilities
`{N: log 0.6, V: log 0.4}`, transitions `{N: {V: log 0.7, N: log 0.3},
V: {N: log 0.9, V: log 0.1}}` and emissions `{N: {dog: log 0.5},
V: {run: log 0.6}}`, decoding `["dog", "run"]` produces `"dog/N run/V"`.
Log-probabilities are represented exactly via `logQ` (see its doc comment):
`logQ q` stands for `log q`, addition of logs is multiplication of the
underlying positive rationals and the order agrees, so this run reproduces
the source's real-number log arithmetic without float rounding. -/
theorem claim_C5 :
    viterbi logQ ["dog", "run"] 10 ["N", "V"]
      (fun s => logQ (if s = "N" then 6/10 else 4/10))
      (fun s w => if s = "N" && w = "dog" then some (logQ (1/2))
        else if s = "V" && w = "run" then some (logQ (6/10)) else none)
      (fun p s => if p = "N" then
          (if s = "V" then some (logQ (7/10))
           else if s = "N" then some (logQ (3/10)) else none)
        else if p = "V" then
          (if s = "N" then some (logQ (9/10))
           else if s = "V" then some (logQ (1/10)) else none)
        else none)
      = some "dog/N run/V" := by
  with_unfolding_all decide

/-- C9: invoking the engine on a zero-length observation fails (the source
raises `IndexError` at `observation[0]`; in the embedding the decode is
`none`), rather than returning an empty or garbage tag sequence. -/
theorem claim_C9 {α : Type} [LinearOrder α] [Add α] (log : ℚ → α) (dwc : ℚ)
    (states : List String) (iP : String → α)
    (eP tP : String → String → Option α) (hne : states ≠ []) :
    viterbi log [] dwc states iP eP tP = none := by
  have h0 := level0_nil (α := α) (unknown_word_prob log dwc) iP eP hne
  simp [viterbi, buildTrellis, h0]

/-- Witness for C9 at a concrete one-state model. -/
theorem claim_C9_witness :
    (["N"] : List String) ≠ [] ∧
    viterbi (fun _ => (0 : ℤ)) [] 5 ["N"] (fun _ => 0) (fun _ _ => some 0)
      (fun _ _ => some 0) = none :=
  ⟨by decide, claim_C9 (fun _ => (0 : ℤ)) 5 ["N"] (fun _ => 0) (fun _ _ => some 0)
    (fun _ _ => some 0) (by decide)⟩

/-- C8: the backtracker selects as final-step state the first one (in the
level's declared key order) whose probability equals the recomputed maximum
over all final cells, and that state is the last element of the returned
tag sequence. -/
theorem claim_C8 {α : Type} [LinearOrder α] (V : List (Level α))
    (lastL : Level α) (m : α) (tags : List String)
    (hlast : V.getLast? = some lastL)
    (hm : pythonMax (lastL.map (fun x => x.2.prob)) = some m)
    (htags : backtrack_viterbi_matrix V = some tags) :
    ∃ e, lastL.find? (fun x => decide (x.2.prob = m)) = some e ∧
      e.2.prob = m ∧ tags.getLast? = some e.1 := by
  have hmem := pythonMax_mem hm
  obtain ⟨e0, he0, he0p⟩ := List.mem_map.mp hmem
  have hfind : (lastL.find? (fun x => decide (x.2.prob = m))).isSome = true :=
    List.find?_isSome.mpr ⟨e0, he0, by simp [he0p]⟩
  cases hf : lastL.find? (fun x => decide (x.2.prob = m)) with
  | none => rw [hf] at hfind; cases hfind
  | some e =>
      refine ⟨e, rfl, by simpa using List.find?_some hf, ?_⟩
      simp [backtrack_viterbi_matrix, hlast, hm, hf] at htags
      cases hw : backWalk V.tail.reverse e.1 with
      | none => simp [hw] at htags
      | some walked =>
          simp [hw] at htags
          rw [← htags]
          exact List.getLast?_concat _

/-- Witness for C8: a one-level trellis with two final cells tied at the
maximum; the first state in declared order, `"A"`, is selected. -/
theorem claim_C8_witness :
    ([[("A", Cell.mk (0 : ℤ) none), ("B", Cell.mk 0 none)]].getLast?
        = some [("A", Cell.mk (0 : ℤ) none), ("B", Cell.mk 0 none)]) ∧
    pythonMax ([("A", Cell.mk (0 : ℤ) none), ("B", Cell.mk 0 none)].map
        (fun x => x.2.prob)) = some 0 ∧
    backtrack_viterbi_matrix [[("A", Cell.mk (0 : ℤ) none), ("B", Cell.mk 0 none)]]
        = some ["A"] ∧
    (∃ e, [("A", Cell.mk (0 : ℤ) none), ("B", Cell.mk 0 none)].find?
        (fun x => decide (x.2.prob = (0 : ℤ))) = some e ∧
      e.2.prob = 0 ∧ (["A"] : List String).getLast? = some e.1) :=
  ⟨by decide, by decide, by decide,
    claim_C8 [[("A", Cell.mk (0 : ℤ) none), ("B", Cell.mk 0 none)]]
      [("A", Cell.mk (0 : ℤ) none), ("B", Cell.mk 0 none)] 0 ["A"]
      (by decide) (by decide) (by decide)⟩

/-- C3: for a nonempty state set and a nonempty observation, the trellis
construction succeeds, some final-step cell's probability equals the
recomputed maximum (the `find?` succeeds, so the `"RDM"` sentinel branch is
never taken), backtracking succeeds, every returned tag is a declared model
state (so the sentinel is never returned), and the whole decode produces an
output string. -/
theorem claim_C3 {α : Type} [LinearOrder α] [Add α] (log : ℚ → α)
    (w : String) (ws : List String) (dwc : ℚ) (states : List String)
    (iP : String → α) (eP tP : String → String → Option α)
    (hne : states ≠ []) :
    ∃ T lastL m e tags out,
      buildTrellis (unknown_state_prob log ((states.length : ℚ)))
        (unknown_word_prob log dwc) states iP eP tP (w :: ws) = some T ∧
      T.getLast? = some lastL ∧
      pythonMax (lastL.map (fun x => x.2.prob)) = some m ∧
      lastL.find? (fun x => decide (x.2.prob = m)) = some e ∧
      backtrack_viterbi_matrix T = some tags ∧
      (∀ x ∈ tags, x ∈ states) ∧
      viterbi log (w :: ws) dwc states iP eP tP = some out := by
  obtain ⟨T, hT, hTlen, _, hkeys, hgood⟩ := buildTrellis_spec
    (unknown_state_prob log ((states.length : ℚ))) (unknown_word_prob log dwc)
    states iP eP tP w ws hne
  have hTne : T ≠ [] := by
    intro h0
    rw [h0] at hTlen
    simp at hTlen
  obtain ⟨lastL, m, e, tags, hlast, hm, hf, htags, htlen, htmem, _⟩ :=
    backtrack_spec states T hne hTne hkeys hgood
  obtain ⟨pairs, hpairs, _⟩ := formatPairs_spec (w :: ws) tags
    (by rw [htlen, hTlen])
  exact ⟨T, lastL, m, e, tags, String.intercalate " " pairs, hT, hlast, hm, hf,
    htags, htmem, by simp [viterbi, hT, htags, hpairs]⟩

/-- Witness for C3 at a concrete one-state model and observation. -/
theorem claim_C3_witness :
    (["N"] : List String) ≠ [] ∧
    (∃ T lastL m e tags out,
      buildTrellis (unknown_state_prob (fun _ => (0 : ℤ)) (((["N"] : List String).length : ℚ)))
        (unknown_word_prob (fun _ => (0 : ℤ)) 5) ["N"] (fun _ => 0)
        (fun _ _ => none) (fun _ _ => none) ["a"] = some T ∧
      T.getLast? = some lastL ∧
      pythonMax (lastL.map (fun x => x.2.prob)) = some m ∧
      lastL.find? (fun x => decide (x.2.prob = m)) = some e ∧
      backtrack_viterbi_matrix T = some tags ∧
      (∀ x ∈ tags, x ∈ ["N"]) ∧
      viterbi (fun _ => (0 : ℤ)) ["a"] 5 ["N"] (fun _ => 0) (fun _ _ => none)
        (fun _ _ => none) = some out) :=
  ⟨by decide, claim_C3 (fun _ => (0 : ℤ)) "a" [] 5 ["N"] (fun _ => 0)
    (fun _ _ => none) (fun _ _ => none) (by decide)⟩

/-- C4: for observation length `n ≥ 1` and state-set size `S ≥ 1` the
trellis has exactly `n` levels of `S` cells each, every cell at steps
`t ≥ 1` records exactly one predecessor (its backpointer is `some`), and
the tag sequence returned by backtracking has length exactly `n`. -/
theorem claim_C4 {α : Type} [LinearOrder α] [Add α] (log : ℚ → α)
    (w : String) (ws : List String) (dwc : ℚ) (states : List String)
    (iP : String → α) (eP tP : String → String → Option α)
    (hne : states ≠ []) :
    ∃ T tags,
      buildTrellis (unknown_state_prob log ((states.length : ℚ)))
        (unknown_word_prob log dwc) states iP eP tP (w :: ws) = some T ∧
      T.length = (w :: ws).length ∧
      (∀ lvl ∈ T, lvl.length = states.length) ∧
      (∀ lvl ∈ T.tail, ∀ e ∈ lvl, ∃ p, e.2.backpointer = some p) ∧
      backtrack_viterbi_matrix T = some tags ∧
      tags.length = (w :: ws).length := by
  obtain ⟨T, hT, hTlen, _, hkeys, hgood⟩ := buildTrellis_spec
    (unknown_state_prob log ((states.length : ℚ))) (unknown_word_prob log dwc)
    states iP eP tP w ws hne
  have hTne : T ≠ [] := by
    intro h0
    rw [h0] at hTlen
    simp at hTlen
  obtain ⟨lastL, m, e, tags, _, _, _, htags, htlen, _, _⟩ :=
    backtrack_spec states T hne hTne hkeys hgood
  refine ⟨T, tags, hT, hTlen, ?_, ?_, htags, by rw [htlen, hTlen]⟩
  · intro lvl hl
    obtain ⟨g, hg⟩ := hkeys lvl hl
    rw [hg]
    exact mkLevel_length states g
  · intro lvl hl e he
    obtain ⟨g, hg, hbp⟩ := hgood lvl hl
    subst hg
    obtain ⟨s, hs, hes⟩ := mem_mkLevel_iff.mp he
    obtain ⟨p, _, hp⟩ := hbp s hs
    exact ⟨p, by rw [hes]; exact hp⟩

/-- Adjacency of trellis levels: each level appended by the extension loop
is `nextLevel` of the previous level at the corresponding token. -/
theorem extendTrellis_adjacent {α : Type} [LinearOrder α] [Add α] (us uw : α)
    (states : List String) (eP tP : String → String → Option α) :
    ∀ (ws : List String) (prev : Level α) (Ts : List (Level α)),
      extendTrellis us uw states eP tP prev ws = some Ts →
      ∀ i, i < Ts.length →
        ∃ w' prevL lvl, ws[i]? = some w' ∧ (prev :: Ts)[i]? = some prevL ∧
          Ts[i]? = some lvl ∧
          nextLevel us uw states eP tP prevL w' states = some lvl := by
  intro ws
  induction ws with
  | nil =>
      intro prev Ts h i hi
      simp only [extendTrellis, Option.some.injEq] at h
      subst h
      simp at hi
  | cons w rest ih =>
      intro prev Ts h i hi
      rw [extendTrellis] at h
      cases hnl : nextLevel us uw states eP tP prev w states with
      | none => rw [hnl] at h; simp at h
      | some lvl =>
          rw [hnl] at h
          simp only [Option.bind_eq_bind, Option.some_bind] at h
          cases hext : extendTrellis us uw states eP tP lvl rest with
          | none => rw [hext] at h; simp at h
          | some Ts' =>
              rw [hext] at h
              simp only [Option.bind_eq_bind, Option.some_bind, Option.pure_def, Option.some.injEq] at h
              subst h
              cases i with
              | zero =>
                  exact ⟨w, prev, lvl, List.getElem?_cons_zero,
                    List.getElem?_cons_zero, List.getElem?_cons_zero, hnl⟩
              | succ j =>
                  have hj : j < Ts'.length := by simpa using hi
                  obtain ⟨w', prevL, lvl', h1, h2, h3, h4⟩ := ih lvl Ts' hext j hj
                  refine ⟨w', prevL, lvl', by simpa using h1, ?_, by simpa using h3, h4⟩
                  rw [List.getElem?_cons_succ]
                  exact h2

/-- C1 counterexample: with states `["A","B"]`, two observation tokens and
an all-zero model (every initial, emission and transition log-probability
is 0), all candidate predecessor scores tie at the maximum 0.  The first
state in declared order whose candidate equals the maximum is `"A"`, but
the backpointer the code records at cell `(1, "A")` is `"B"`: the source's
re-scan loop has no `break`, so each tying predecessor overwrites the cell
and the LAST match survives. -/
theorem claim_C1_counterexample :
    ((buildTrellis (0 : ℤ) 0 ["A", "B"] (fun _ => 0) (fun _ _ => some 0)
        (fun _ _ => some 0) ["x", "y"]).bind
      (fun T => (T[1]?).bind
        (fun l => (lookupLevel l "A").map (fun c => c.backpointer))))
      = some (some "B") ∧
    pythonMax (["A", "B"].map (candScore (0 : ℤ) (fun _ _ => some 0)
      (cell0 (0 : ℤ) (fun _ => 0) (fun _ _ => some 0) "x") "A")) = some 0 ∧
    ["A", "B"].find? (fun p => decide (candScore (0 : ℤ) (fun _ _ => some 0)
      (cell0 (0 : ℤ) (fun _ => 0) (fun _ _ => some 0) "x") "A" p = 0)) = some "A" ∧
    "B" ≠ "A" := by decide

/-- C1 amended: during trellis construction, for every step `t ≥ 1` and
every state `s`, the backpointer recorded at cell `(t, s)` is the LAST
state, in the declared state-iteration order, whose candidate score
`cell(t-1, p).prob + transition[p].get(s, fallback)` equals the maximum
candidate over all predecessors (the source's re-scan loop has no `break`,
so later ties overwrite earlier ones). -/
theorem claim_C1_amended {α : Type} [LinearOrder α] [Add α] (us uw : α)
    (states : List String) (iP : String → α)
    (eP tP : String → String → Option α) (w : String) (ws : List String)
    (T : List (Level α)) (t : ℕ) (s : String) (hne : states ≠ [])
    (hT : buildTrellis us uw states iP eP tP (w :: ws) = some T)
    (ht1 : 1 ≤ t) (ht : t < T.length) (hs : s ∈ states) :
    ∃ f g prevL lvl m,
      T[t-1]? = some prevL ∧ prevL = mkLevel states f ∧
      T[t]? = some lvl ∧ lvl = mkLevel states g ∧
      pythonMax (states.map (candScore us tP f s)) = some m ∧
      (g s).backpointer
        = states.reverse.find? (fun p => decide (candScore us tP f s p = m)) := by
  rw [buildTrellis, level0_eq] at hT
  simp only [Option.bind_eq_bind, Option.some_bind, List.tail_cons] at hT
  cases hext : extendTrellis us uw states eP tP
      (mkLevel states (cell0 uw iP eP w)) ws with
  | none => rw [hext] at hT; simp at hT
  | some Ts =>
      rw [hext] at hT
      simp only [Option.bind_eq_bind, Option.some_bind, Option.pure_def, Option.some.injEq] at hT
      obtain ⟨Ts', hTs', _, hgood'⟩ := extendTrellis_spec us uw states eP tP hne
        ws (cell0 uw iP eP w)
      rw [hTs'] at hext
      have hTsTs : Ts = Ts' := by
        exact (Option.some.injEq _ _).mp hext.symm
      subst hTsTs
      subst hT
      obtain ⟨i, hti⟩ : ∃ i, t = i + 1 := ⟨t - 1, by omega⟩
      subst hti
      have hi : i < Ts.length := by simpa using ht
      obtain ⟨w', prevL, lvl, _, h2, h3, h4⟩ := extendTrellis_adjacent us uw
        states eP tP ws (mkLevel states (cell0 uw iP eP w)) Ts hTs' i hi
      have hprevmem : prevL ∈ mkLevel states (cell0 uw iP eP w) :: Ts :=
        List.getElem?_mem h2
      obtain ⟨f, hf⟩ : ∃ f, prevL = mkLevel states f := by
        rcases List.mem_cons.mp hprevmem with h | h
        · exact ⟨cell0 uw iP eP w, h⟩
        · obtain ⟨g, hg, _⟩ := hgood' prevL h
          exact ⟨g, hg⟩
      subst hf
      obtain ⟨g, hg, hgstep⟩ := nextLevel_eq us uw states eP tP f w' hne states
        (fun x hx => hx)
      rw [hg] at h4
      have hlvl : lvl = mkLevel states g := by
        exact ((Option.some.injEq _ _).mp h4).symm
      obtain ⟨m, bp, hm, hsat, _, _, hstep⟩ := stepCell_eq us uw states eP tP
        f w' s hne
      have hgs := hgstep s hs
      rw [hstep] at hgs
      have hgsval : g s = ⟨m + (eP s w').getD uw, some bp⟩ :=
        ((Option.some.injEq _ _).mp hgs).symm
      refine ⟨f, g, mkLevel states f, lvl, m,
        by simpa using h2, rfl, by simpa using h3, hlvl, hm, ?_⟩
      rw [hgsval]
      rw [lastSatB_eq_findRev, Option.or_none] at hsat
      rw [hsat]

/-- Witness for C1 amended, at the counterexample's input: the recorded
backpointer at cell `(1, "A")` is the last tying predecessor `"B"`. -/
theorem claim_C1_amended_witness :
    (["A", "B"] : List String) ≠ [] ∧
    buildTrellis (0 : ℤ) 0 ["A", "B"] (fun _ => 0) (fun _ _ => some 0)
        (fun _ _ => some 0) ["x", "y"]
      = some [[("A", Cell.mk (0 : ℤ) none), ("B", Cell.mk 0 none)],
              [("A", Cell.mk 0 (some "B")), ("B", Cell.mk 0 (some "B"))]] ∧
    (1 : ℕ) ≤ 1 ∧
    1 < ([[("A", Cell.mk (0 : ℤ) none), ("B", Cell.mk 0 none)],
          [("A", Cell.mk 0 (some "B")), ("B", Cell.mk 0 (some "B"))]]).length ∧
    "A" ∈ (["A", "B"] : List String) ∧
    (∃ f g prevL lvl m,
      ([[("A", Cell.mk (0 : ℤ) none), ("B", Cell.mk 0 none)],
        [("A", Cell.mk 0 (some "B")), ("B", Cell.mk 0 (some "B"))]])[(1 : ℕ) - 1]?
        = some prevL ∧
      prevL = mkLevel ["A", "B"] f ∧
      ([[("A", Cell.mk (0 : ℤ) none), ("B", Cell.mk 0 none)],
        [("A", Cell.mk 0 (some "B")), ("B", Cell.mk 0 (some "B"))]])[(1 : ℕ)]?
        = some lvl ∧
      lvl = mkLevel ["A", "B"] g ∧
      pythonMax (["A", "B"].map (candScore (0 : ℤ) (fun _ _ => some 0) f "A"))
        = some m ∧
      (g "A").backpointer
        = ["A", "B"].reverse.find?
            (fun p => decide (candScore (0 : ℤ) (fun _ _ => some 0) f "A" p = m))) :=
  ⟨by decide, by decide, by decide, by decide, by decide,
    claim_C1_amended (0 : ℤ) 0 ["A", "B"] (fun _ => 0) (fun _ _ => some 0)
      (fun _ _ => some 0) "x" ["y"]
      [[("A", Cell.mk (0 : ℤ) none), ("B", Cell.mk 0 none)],
       [("A", Cell.mk 0 (some "B")), ("B", Cell.mk 0 (some "B"))]] 1 "A"
      (by decide) (by decide) (by decide) (by decide) (by decide)⟩

/-- Witness for C4 at a concrete one-state model and observation. -/
theorem claim_C4_witness :
    (["N"] : List String) ≠ [] ∧
    (∃ T tags,
      buildTrellis (unknown_state_prob (fun _ => (0 : ℤ)) (((["N"] : List String).length : ℚ)))
        (unknown_word_prob (fun _ => (0 : ℤ)) 5) ["N"] (fun _ => 0)
        (fun _ _ => none) (fun _ _ => none) ["a", "b"] = some T ∧
      T.length = (["a", "b"] : List String).length ∧
      (∀ lvl ∈ T, lvl.length = (["N"] : List String).length) ∧
      (∀ lvl ∈ T.tail, ∀ e ∈ lvl, ∃ p, e.2.backpointer = some p) ∧
      backtrack_viterbi_matrix T = some tags ∧
      tags.length = (["a", "b"] : List String).length) :=
  ⟨by decide, claim_C4 (fun _ => (0 : ℤ)) "a" ["b"] 5 ["N"] (fun _ => 0)
    (fun _ _ => none) (fun _ _ => none) (by decide)⟩

/-! ### Single-token decodes -/

theorem mkLevel_probs {α : Type} (states : List String) (f : String → Cell α) :
    (mkLevel states f).map (fun x => x.2.prob) = states.map (fun s => (f s).prob) := by
  induction states with
  | nil => rfl
  | cons s rest ih => simpa [mkLevel] using ih

theorem intercalate_space_single (x : String) : String.intercalate " " [x] = x := rfl

/-- Shared analysis of a length-1 decode: the trellis is the single level 0,
no extension happens, and the resulting tag is the first state in declared
order whose level-0 score equals the maximum level-0 score. -/
theorem viterbi_single {α : Type} [LinearOrder α] [Add α] (log : ℚ → α)
    (w : String) (dwc : ℚ) (states : List String) (iP : String → α)
    (eP tP : String → String → Option α) (hne : states ≠ []) :
    ∃ m t0,
      pythonMax (states.map
          (fun s => iP s + (eP s w).getD (unknown_word_prob log dwc))) = some m ∧
      states.find? (fun s =>
          decide (iP s + (eP s w).getD (unknown_word_prob log dwc) = m)) = some t0 ∧
      buildTrellis (unknown_state_prob log ((states.length : ℚ)))
        (unknown_word_prob log dwc) states iP eP tP [w]
        = some [mkLevel states (cell0 (unknown_word_prob log dwc) iP eP w)] ∧
      viterbi log [w] dwc states iP eP tP = some (w ++ "/" ++ t0) := by
  set uw := unknown_word_prob log dwc with huw
  set us := unknown_state_prob log ((states.length : ℚ)) with hus
  have hscore : ∀ s, (cell0 uw iP eP w s).prob = iP s + (eP s w).getD uw := by
    intro s; rfl
  have hT : buildTrellis us uw states iP eP tP [w]
      = some [mkLevel states (cell0 uw iP eP w)] := by
    simp [buildTrellis, level0_eq, extendTrellis]
  have hmapeq : (mkLevel states (cell0 uw iP eP w)).map (fun x => x.2.prob)
      = states.map (fun s => iP s + (eP s w).getD uw) := by
    rw [mkLevel_probs]; rfl
  have hprobs_ne : states.map (fun s => iP s + (eP s w).getD uw) ≠ [] := by
    simpa using hne
  obtain ⟨m, hm⟩ := pythonMax_of_ne_nil hprobs_ne
  have hmem := pythonMax_mem hm
  obtain ⟨s0, hs0, hs0p⟩ := List.mem_map.mp hmem
  have hfind0 : (states.find? (fun s =>
      decide (iP s + (eP s w).getD uw = m))).isSome = true :=
    List.find?_isSome.mpr ⟨s0, hs0, by simp [hs0p]⟩
  cases hf : states.find? (fun s => decide (iP s + (eP s w).getD uw = m)) with
  | none => rw [hf] at hfind0; cases hfind0
  | some t0 =>
      refine ⟨m, t0, hm, hf, hT, ?_⟩
      have hfindlvl : (mkLevel states (cell0 uw iP eP w)).find?
          (fun x => decide (x.2.prob = m))
          = some (t0, cell0 uw iP eP w t0) := by
        rw [mkLevel, List.find?_map]
        have : ((fun x => decide (x.2.prob = m)) ∘
            (fun s => (s, cell0 uw iP eP w s)))
            = fun s => decide (iP s + (eP s w).getD uw = m) := by
          funext s; rfl
        rw [this, hf]
        rfl
      have htags : backtrack_viterbi_matrix [mkLevel states (cell0 uw iP eP w)]
          = some [t0] := by
        simp [backtrack_viterbi_matrix, hmapeq, hm, hfindlvl, backWalk]
      have hpairs : formatPairs [w] [t0] = some [w ++ "/" ++ t0] := by
        simp [formatPairs]
      simp [viterbi, ← hus, ← huw, hT, htags, hpairs, intercalate_space_single]

/-- C7: for a single-token observation the output tag is the argmax over
states `s` of `initial[s] + emission[s].get(token, unknown_word_log_prob)`,
the first state in declared order on exact ties (the `find?`), and the
trellis-extension step is skipped: the trellis is exactly the single
level-0. -/
theorem claim_C7 {α : Type} [LinearOrder α] [Add α] (log : ℚ → α)
    (w : String) (dwc : ℚ) (states : List String) (iP : String → α)
    (eP tP : String → String → Option α) (hne : states ≠ []) :
    ∃ m t0,
      pythonMax (states.map
          (fun s => iP s + (eP s w).getD (unknown_word_prob log dwc))) = some m ∧
      states.find? (fun s =>
          decide (iP s + (eP s w).getD (unknown_word_prob log dwc) = m)) = some t0 ∧
      buildTrellis (unknown_state_prob log ((states.length : ℚ)))
        (unknown_word_prob log dwc) states iP eP tP [w]
        = some [mkLevel states (cell0 (unknown_word_prob log dwc) iP eP w)] ∧
      viterbi log [w] dwc states iP eP tP = some (w ++ "/" ++ t0) :=
  viterbi_single log w dwc states iP eP tP hne

/-- Witness for C7: two states tied at the maximum level-0 score; the first
in declared order, `"N"`, is chosen. -/
theorem claim_C7_witness :
    (["N", "V"] : List String) ≠ [] ∧
    (∃ m t0,
      pythonMax ((["N", "V"] : List String).map
          (fun s => (0 : ℤ) + ((none : Option ℤ)).getD
            (unknown_word_prob (fun _ => (0 : ℤ)) 5))) = some m ∧
      (["N", "V"] : List String).find? (fun s =>
          decide ((0 : ℤ) + ((none : Option ℤ)).getD
            (unknown_word_prob (fun _ => (0 : ℤ)) 5) = m)) = some t0 ∧
      buildTrellis (unknown_state_prob (fun _ => (0 : ℤ)) (((["N", "V"] : List String).length : ℚ)))
        (unknown_word_prob (fun _ => (0 : ℤ)) 5) ["N", "V"] (fun _ => 0)
        (fun _ _ => none) (fun _ _ => none) ["tok"]
        = some [mkLevel ["N", "V"]
            (cell0 (unknown_word_prob (fun _ => (0 : ℤ)) 5) (fun _ => 0)
              (fun _ _ => none) "tok")] ∧
      viterbi (fun _ => (0 : ℤ)) ["tok"] 5 ["N", "V"] (fun _ => 0)
        (fun _ _ => none) (fun _ _ => none) = some ("tok" ++ "/" ++ t0)) :=
  ⟨by decide, claim_C7 (fun _ => (0 : ℤ)) "tok" 5 ["N", "V"] (fun _ => 0)
    (fun _ _ => none) (fun _ _ => none) (by decide)⟩

/-- C6: the two smoothing fallbacks are the constants
`log((1/V) * 0.01)` and `log((1/S) * 0.01)` (`K = 0.01 = 1/100`), computed
once per decode at the top of `viterbi`; a missing emission entry scores the
level-0 cell with the unknown-word fallback, a missing transition entry
scores the candidate with the unknown-transition fallback, and no error is
raised for an unseen pair: the decode still produces an output. -/
theorem claim_C6 {α : Type} [LinearOrder α] [Add α] (log : ℚ → α)
    (dwc S : ℚ) (states : List String) (iP : String → α)
    (eP tP : String → String → Option α) (w : String) (ws : List String)
    (s p : String) (f : String → Cell α)
    (hs : s ∈ states) (hp : p ∈ states) (hne : states ≠ []) :
    unknown_word_prob log dwc = log (1 / dwc * (1 / 100)) ∧
    unknown_state_prob log S = log (1 / S * (1 / 100)) ∧
    (eP s w = none →
      level0 (unknown_word_prob log dwc) iP eP (w :: ws) states
        = some (mkLevel states (cell0 (unknown_word_prob log dwc) iP eP w)) ∧
      lookupLevel (mkLevel states (cell0 (unknown_word_prob log dwc) iP eP w)) s
        = some (Cell.mk (iP s + unknown_word_prob log dwc) none)) ∧
    (tP p s = none →
      candScore (unknown_state_prob log S) tP f s p
        = (f p).prob + unknown_state_prob log S) ∧
    (∃ out, viterbi log (w :: ws) dwc states iP eP tP = some out) := by
  refine ⟨rfl, rfl, ?_, ?_, ?_⟩
  · intro hmiss
    refine ⟨level0_eq (unknown_word_prob log dwc) iP eP w ws states, ?_⟩
    rw [lookup_mkLevel _ hs]
    simp [cell0, hmiss]
  · intro hmiss
    simp [candScore, hmiss]
  · obtain ⟨T, tags, pairs, _, _, _, _, _, hout⟩ :=
      viterbi_run log w ws dwc states iP eP tP hne
    exact ⟨String.intercalate " " pairs, hout⟩

/-- Witness for C6 at a concrete model whose emission and transition tables
are entirely empty, so every lookup misses. -/
theorem claim_C6_witness :
    "N" ∈ (["N"] : List String) ∧ (["N"] : List String) ≠ [] ∧
    (unknown_word_prob (fun q => (q : ℚ)) 5 = (fun q => (q : ℚ)) (1 / 5 * (1 / 100)) ∧
    unknown_state_prob (fun q => (q : ℚ)) 1 = (fun q => (q : ℚ)) (1 / 1 * (1 / 100)) ∧
    (((fun _ _ => none) : String → String → Option ℚ) "N" "tok" = none →
      level0 (unknown_word_prob (fun q => (q : ℚ)) 5) (fun _ => 0) (fun _ _ => none)
          ["tok"] ["N"]
        = some (mkLevel ["N"] (cell0 (unknown_word_prob (fun q => (q : ℚ)) 5)
            (fun _ => 0) (fun _ _ => none) "tok")) ∧
      lookupLevel (mkLevel ["N"] (cell0 (unknown_word_prob (fun q => (q : ℚ)) 5)
          (fun _ => 0) (fun _ _ => none) "tok")) "N"
        = some (Cell.mk ((0 : ℚ) + unknown_word_prob (fun q => (q : ℚ)) 5) none)) ∧
    (((fun _ _ => none) : String → String → Option ℚ) "N" "N" = none →
      candScore (unknown_state_prob (fun q => (q : ℚ)) 1) (fun _ _ => none)
          (fun _ => Cell.mk (0 : ℚ) none) "N" "N"
        = (Cell.mk (0 : ℚ) none).prob + unknown_state_prob (fun q => (q : ℚ)) 1) ∧
    (∃ out, viterbi (fun q => (q : ℚ)) ["tok"] 5 ["N"] (fun _ => 0)
        (fun _ _ => none) (fun _ _ => none) = some out)) :=
  ⟨by decide, by decide,
    claim_C6 (fun q => (q : ℚ)) 5 1 ["N"] (fun _ => 0) (fun _ _ => none)
      (fun _ _ => none) "tok" [] "N" "N" (fun _ => Cell.mk (0 : ℚ) none)
      (by decide) (by decide) (by decide)⟩

/-! ### The orchestrator: line splitting and per-line decoding -/

/-- Modelled from the spec: the split the spec's words describe ("split the
line on whitespace into the observation sequence", Python `str.split()` with
no separator): split on maximal whitespace runs, dropping empty tokens.
Present only to compare the spec's wording with the source's
`line.strip().split(" ")`; the accumulator holds the current token. -/
def specWhitespaceSplitAux : List Char → List Char → List (List Char)
  | [], acc => if acc = [] then [] else [acc.reverse]
  | c :: rest, acc =>
      if c.isWhitespace then
        if acc = [] then specWhitespaceSplitAux rest []
        else acc.reverse :: specWhitespaceSplitAux rest []
      else specWhitespaceSplitAux rest (c :: acc)

/-- Modelled from the spec: whitespace-run split of a line, empty tokens
dropped (see `specWhitespaceSplitAux`). -/
def specWhitespaceSplit (line : String) : List String :=
  (specWhitespaceSplitAux line.data []).map (fun cs => String.mk cs)

theorem pySplitSpace_ne_nil : ∀ (l : List Char), pySplitSpace l ≠ [] := by
  intro l
  cases l with
  | nil => simp [pySplitSpace]
  | cons c rest =>
      rw [pySplitSpace]
      by_cases h : c = ' '
      · simp [h]
      · simp only [h, if_false]
        cases pySplitSpace rest <;> simp

theorem obsOf_ne_nil (line : String) : obsOf line ≠ [] := by
  unfold obsOf
  intro h
  exact pySplitSpace_ne_nil (pyStrip line.data) (List.map_eq_nil.mp h)

theorem dropWhile_isPySpace_all_space :
    ∀ (l : List Char), (∀ c ∈ l, c = ' ') → l.dropWhile isPySpace = [] := by
  intro l
  induction l with
  | nil => intro _; rfl
  | cons c rest ih =>
      intro h
      have hc : c = ' ' := h c (List.mem_cons_self _ _)
      subst hc
      rw [List.dropWhile_cons]
      simp only [isPySpace]
      simpa using ih (fun x hx => h x (List.mem_cons_of_mem _ hx))

theorem obsOf_all_space (line : String) (h : ∀ c ∈ line.data, c = ' ') :
    obsOf line = [""] := by
  have hstrip : pyStrip line.data = [] := by
    unfold pyStrip
    rw [dropWhile_isPySpace_all_space line.data h]
    rfl
  unfold obsOf
  rw [hstrip]
  rfl

theorem find?_congr_on {p q : String → Bool} :
    ∀ (l : List String), (∀ x ∈ l, p x = q x) → l.find? p = l.find? q := by
  intro l
  induction l with
  | nil => intro _; rfl
  | cons x rest ih =>
      intro h
      have hx := h x (List.mem_cons_self _ _)
      rw [List.find?_cons, List.find?_cons, hx]
      cases q x with
      | true => rfl
      | false => exact ih (fun y hy => h y (List.mem_cons_of_mem _ hy))

/-- C2 counterexample: on the input line `"a  b"` (two spaces) the
orchestrator's `line.strip().split(" ")` yields `["a", "", "b"]`, which is
not the whitespace split `["a", "b"]` the claim describes: `split(" ")`
splits at every single space and keeps empty pieces. -/
theorem claim_C2_counterexample :
    obsOf "a  b" = ["a", "", "b"] ∧
    specWhitespaceSplit "a  b" = ["a", "b"] ∧
    obsOf "a  b" ≠ specWhitespaceSplit "a  b" := by decide

/-- C2 amended: for every input line the orchestrator splits the
`strip`ped line at every single space character (empty tokens kept between
adjacent spaces) into the observation — `obsOf` —, decodes it with
`viterbi` (whose output is the `token/tag` pairs joined by single spaces),
and emits exactly one output line per input line with output line `i`
corresponding to input line `i`. -/
theorem claim_C2_amended {α : Type} [LinearOrder α] [Add α] (log : ℚ → α)
    (dwc : ℚ) (states : List String) (iP : String → α)
    (eP tP : String → String → Option α) (lines outs : List String)
    (h : tag_lines log dwc states iP eP tP lines = some outs) :
    outs.length = lines.length ∧
    ∀ i, i < lines.length →
      ∃ line out, lines[i]? = some line ∧ outs[i]? = some out ∧
        viterbi log (obsOf line) dwc states iP eP tP = some out := by
  induction lines generalizing outs with
  | nil =>
      simp only [tag_lines, Option.some.injEq] at h
      subst h
      exact ⟨rfl, by intro i hi; simp at hi⟩
  | cons line rest ih =>
      rw [tag_lines] at h
      cases hv : viterbi log (obsOf line) dwc states iP eP tP with
      | none => rw [hv] at h; simp at h
      | some out =>
          rw [hv] at h
          simp only [Option.bind_eq_bind, Option.some_bind] at h
          cases hr : tag_lines log dwc states iP eP tP rest with
          | none => rw [hr] at h; simp at h
          | some outs' =>
              rw [hr] at h
              simp only [Option.bind_eq_bind, Option.some_bind, Option.pure_def,
                Option.some.injEq] at h
              subst h
              obtain ⟨hlen, hidx⟩ := ih outs' hr
              refine ⟨by simp [hlen], ?_⟩
              intro i hi
              cases i with
              | zero =>
                  exact ⟨line, out, List.getElem?_cons_zero,
                    List.getElem?_cons_zero, hv⟩
              | succ j =>
                  have hj : j < rest.length := by simpa using hi
                  obtain ⟨line', out', h1, h2, h3⟩ := hidx j hj
                  exact ⟨line', out', by simpa using h1, by simpa using h2, h3⟩

/-- Witness for C2 amended: two concrete input lines decoded with an
all-zero one-state model. -/
theorem claim_C2_amended_witness :
    tag_lines (fun _ => (0 : ℤ)) 5 ["N"] (fun _ => 0) (fun _ _ => some 0)
        (fun _ _ => some 0) ["a", "b c"] = some ["a/N", "b/N c/N"] ∧
    ((["a/N", "b/N c/N"] : List String).length = (["a", "b c"] : List String).length ∧
     ∀ i, i < (["a", "b c"] : List String).length →
       ∃ line out, (["a", "b c"] : List String)[i]? = some line ∧
         (["a/N", "b/N c/N"] : List String)[i]? = some out ∧
         viterbi (fun _ => (0 : ℤ)) (obsOf line) 5 ["N"] (fun _ => 0)
           (fun _ _ => some 0) (fun _ _ => some 0) = some out) :=
  ⟨by decide, claim_C2_amended (fun _ => (0 : ℤ)) 5 ["N"] (fun _ => 0)
    (fun _ _ => some 0) (fun _ _ => some 0) ["a", "b c"] ["a/N", "b/N c/N"]
    (by decide)⟩

/-- C10: an input line that is empty or all spaces is split by the
orchestrator into the one-element observation `[""]`; with the empty-string
token absent from every emission table the decode runs on the unknown-word
fallback and outputs `"/tag"` where the tag is the level-0 argmax; and no
text line can ever produce a zero-length observation, so the
empty-observation failure of the engine is unreachable from `tag_sentence`. -/
theorem claim_C10 {α : Type} [LinearOrder α] [Add α] (log : ℚ → α)
    (dwc : ℚ) (states : List String) (iP : String → α)
    (eP tP : String → String → Option α) (line : String)
    (hspace : ∀ c ∈ line.data, c = ' ') (hne : states ≠ [])
    (hemp : ∀ s ∈ states, eP s "" = none) :
    obsOf line = [""] ∧
    (∃ m t0,
      pythonMax (states.map (fun s => iP s + unknown_word_prob log dwc))
        = some m ∧
      states.find? (fun s => decide (iP s + unknown_word_prob log dwc = m))
        = some t0 ∧
      viterbi log (obsOf line) dwc states iP eP tP = some ("/" ++ t0)) ∧
    (∀ line2 : String, obsOf line2 ≠ []) := by
  have hobs : obsOf line = [""] := obsOf_all_space line hspace
  refine ⟨hobs, ?_, fun line2 => obsOf_ne_nil line2⟩
  obtain ⟨m, t0, hm, hf, _, hout⟩ :=
    viterbi_single log "" dwc states iP eP tP hne
  have hmapeq : states.map
      (fun s => iP s + (eP s "").getD (unknown_word_prob log dwc))
      = states.map (fun s => iP s + unknown_word_prob log dwc) := by
    apply List.map_congr_left
    intro s hs
    rw [hemp s hs]
    rfl
  have hfeq : states.find? (fun s =>
        decide (iP s + (eP s "").getD (unknown_word_prob log dwc) = m))
      = states.find? (fun s => decide (iP s + unknown_word_prob log dwc = m)) := by
    apply find?_congr_on
    intro s hs
    rw [hemp s hs]
    rfl
  refine ⟨m, t0, by rw [← hmapeq]; exact hm, by rw [← hfeq]; exact hf, ?_⟩
  rw [hobs]
  rw [show ("/" ++ t0 : String) = ("" ++ "/" ++ t0 : String) from rfl]
  exact hout

/-- Witness for C10 at a two-space line and an all-defaults one-state model. -/
theorem claim_C10_witness :
    (∀ c ∈ ("  " : String).data, c = ' ') ∧ (["N"] : List String) ≠ [] ∧
    (∀ s ∈ (["N"] : List String),
      ((fun _ _ => none) : String → String → Option ℤ) s "" = none) ∧
    (obsOf "  " = [""] ∧
     (∃ m t0,
        pythonMax ((["N"] : List String).map
          (fun s => (0 : ℤ) + unknown_word_prob (fun _ => (0 : ℤ)) 5)) = some m ∧
        (["N"] : List String).find? (fun s =>
          decide ((0 : ℤ) + unknown_word_prob (fun _ => (0 : ℤ)) 5 = m)) = some t0 ∧
        viterbi (fun _ => (0 : ℤ)) (obsOf "  ") 5 ["N"] (fun _ => 0)
          (fun _ _ => none) (fun _ _ => none) = some ("/" ++ t0)) ∧
     (∀ line2 : String, obsOf line2 ≠ [])) :=
  ⟨by decide, by decide, by decide,
    claim_C10 (fun _ => (0 : ℤ)) 5 ["N"] (fun _ => 0) (fun _ _ => none)
      (fun _ _ => none) "  " (by decide) (by decide) (by decide)⟩

end RunTagger
